import Mathlib

/-!
Verification of the proof-of-work ledger core of the QFS repository
(`qfs/blockchain/quantum_blockchain.py`).

The embedding mirrors the Python source:
* `PyVal` / `Tx` model the transaction dictionaries (`Dict[str, Any]`
  restricted to the string/number values the ledger actually stores);
  dictionary lookup is association-list lookup.
* `Block` mirrors the `Block` dataclass; `Block.calculate_hash` applies a
  pluggable digest `H : BlockData → String` to the five serialized fields
  (`H` stands for SHA3-256 composed with `json.dumps(..., sort_keys=True)`,
  which the spec treats as an opaque collision-resistant primitive).
* `Block.mine_block` is the proof-of-work loop, given explicit fuel so that
  it stays a total function; `none` means the fuel ran out before a solving
  nonce was found.
* `QuantumBlockchain` mirrors the class state (chain, difficulty, pending
  pool, mining reward), and each method becomes a pure function on it.
  Timestamps (`time.time()` floats) are passed in as abstract `Nat` values:
  no claim depends on their arithmetic.
-/

/-- A Python value stored in a transaction dictionary: the ledger only ever
reads string-valued and numeric fields. -/
inductive PyVal : Type where
  | str : String → PyVal
  | num : Int → PyVal
deriving DecidableEq, Repr

/-- A transaction: a dictionary with string keys, modelled as an association
list (lookup takes the first binding, matching dict semantics for the
duplicate-free dictionaries the code builds). -/
abbrev Tx : Type := List (String × PyVal)

/-- `"k" in transaction` in Python. -/
def txHas (t : Tx) (k : String) : Bool := (List.lookup k t).isSome

/-- `transaction.get(k)` in Python (`None` when absent). -/
def txGet (t : Tx) (k : String) : Option PyVal := List.lookup k t

/-- `transaction.get("amount", 0)` used by `get_balance`. A missing field
defaults to `0`. (A non-numeric `"amount"` would make the Python code raise
`TypeError` inside `get_balance`; it is modelled as contributing `0`, which
only matters for transactions no claim evaluates balances over.) -/
def txAmount (t : Tx) : Int :=
  match List.lookup "amount" t with
  | some (PyVal.num n) => n
  | some (PyVal.str _) => 0
  | none => 0

/-- The five fields serialized by `Block.calculate_hash` (the `block_data`
dictionary). -/
structure BlockData : Type where
  index : Nat
  timestamp : Nat
  transactions : List Tx
  previous_hash : String
  nonce : Nat
deriving DecidableEq, Repr

/-- The `Block` dataclass: the five data fields plus the stored `hash`. -/
structure Block : Type where
  index : Nat
  timestamp : Nat
  transactions : List Tx
  previous_hash : String
  nonce : Nat
  hash : String
deriving DecidableEq, Repr

/-- The serialized fields of a block (everything except the stored hash). -/
def Block.blockData (b : Block) : BlockData :=
  ⟨b.index, b.timestamp, b.transactions, b.previous_hash, b.nonce⟩

/-- `Block.calculate_hash`: digest of the canonical serialization of the five
fields. `H` is the pluggable digest primitive. -/
def Block.calculate_hash (H : BlockData → String) (b : Block) : String :=
  H b.blockData

/-- The dataclass constructor together with `__post_init__`: `nonce` defaults
to `0` and `hash` is computed from the initial fields. -/
def Block.make (H : BlockData → String) (index timestamp : Nat)
    (transactions : List Tx) (previous_hash : String) : Block :=
  let b : Block := ⟨index, timestamp, transactions, previous_hash, 0, ""⟩
  { b with hash := Block.calculate_hash H b }

/-- `s.startswith("0" * d)` on the character list of `s`: at least `d`
leading `'0'` characters. -/
def startsWithZeros : List Char → Nat → Bool
  | _, 0 => true
  | [], _ + 1 => false
  | c :: cs, d + 1 => c == '0' && startsWithZeros cs d

/-- One iteration of the mining loop body: `self.nonce += 1` followed by
`self.hash = self.calculate_hash()`. -/
def Block.mineStep (H : BlockData → String) (b : Block) : Block :=
  let b' : Block := { b with nonce := b.nonce + 1 }
  { b' with hash := Block.calculate_hash H b' }

/-- `Block.mine_block`: `while not self.hash.startswith("0" * difficulty)`
increment the nonce and recompute the hash. `fuel` bounds the number of
iterations so the loop is a total function; `none` reports exhausted fuel. -/
def Block.mine_block (H : BlockData → String) (difficulty : Nat) :
    Nat → Block → Option Block
  | 0, b => if startsWithZeros b.hash.data difficulty then some b else none
  | fuel + 1, b =>
      if startsWithZeros b.hash.data difficulty then some b
      else Block.mine_block H difficulty fuel (Block.mineStep H b)

/-- The `QuantumBlockchain` instance state. -/
structure QuantumBlockchain : Type where
  chain : List Block
  difficulty : Nat
  pending_transactions : List Tx
  mining_reward : Int
deriving DecidableEq, Repr

/-- The single transaction of the genesis block. -/
def genesisTxs : List Tx :=
  [[("type", PyVal.str "genesis"),
    ("message", PyVal.str "ScrollSoul Sovereign Treasury Genesis")]]

/-- `QuantumBlockchain.__init__` together with `_create_genesis_block`:
build the genesis block (`previous_hash = "0"`), mine it at the configured
difficulty, and install it as the only chain element. `ts` is the
construction-time timestamp, `fuel` bounds the genesis mining loop. -/
def QuantumBlockchain.init (H : BlockData → String) (difficulty : Nat)
    (ts fuel : Nat) : Option QuantumBlockchain :=
  match Block.mine_block H difficulty fuel
      (Block.make H 0 ts genesisTxs "0") with
  | some g => some ⟨[g], difficulty, [], 100⟩
  | none => none

/-- `get_latest_block`: `self.chain[-1]` (`none` models the `IndexError` on
an empty chain, which the public API never produces). -/
def QuantumBlockchain.get_latest_block (s : QuantumBlockchain) :
    Option Block :=
  s.chain.getLast?

/-- `add_transaction`: raise `ValueError` (modelled as `none`) when any of
the keys `"from"`, `"to"`, `"amount"` is absent, otherwise append the
transaction to the pending pool. -/
def QuantumBlockchain.add_transaction (s : QuantumBlockchain) (t : Tx) :
    Option QuantumBlockchain :=
  if !txHas t "from" || !txHas t "to" || !txHas t "amount" then none
  else some { s with pending_transactions := s.pending_transactions ++ [t] }

/-- The reward transaction reseeding the pool after a successful mine. -/
def rewardTx (miner : String) (amount : Int) : Tx :=
  [("from", PyVal.str "system"), ("to", PyVal.str miner),
   ("amount", PyVal.num amount), ("type", PyVal.str "mining_reward")]

/-- `mine_pending_transactions`: build a block from a copy of the pending
pool with `index = len(chain)` and `previous_hash = latest.hash`, mine it,
append it to the chain, and replace the pool by the single reward
transaction. `ts` is the block timestamp, `fuel` bounds the mining loop. -/
def QuantumBlockchain.mine_pending_transactions (H : BlockData → String)
    (s : QuantumBlockchain) (miner_address : String) (ts fuel : Nat) :
    Option (Block × QuantumBlockchain) :=
  match s.chain.getLast? with
  | none => none
  | some latest =>
      match Block.mine_block H s.difficulty fuel
          (Block.make H s.chain.length ts s.pending_transactions
            latest.hash) with
      | none => none
      | some nb =>
          some (nb,
            { s with
              chain := s.chain ++ [nb],
              pending_transactions := [rewardTx miner_address
                s.mining_reward] })

/-- The body of the `get_balance` double loop for one transaction:
`balance -= amount` when `from == address`, then `balance += amount` when
`to == address`. -/
def balStep (address : String) (balance : Int) (t : Tx) : Int :=
  let b1 := if txGet t "from" == some (PyVal.str address) then
    balance - txAmount t else balance
  if txGet t "to" == some (PyVal.str address) then b1 + txAmount t else b1

/-- `get_balance`: replay every transaction of every block, starting from
zero. -/
def QuantumBlockchain.get_balance (s : QuantumBlockchain)
    (address : String) : Int :=
  s.chain.foldl (fun bal b => b.transactions.foldl (balStep address) bal) 0

/-- The validation scan of `is_chain_valid` for the blocks after the
genesis: `prev` is `self.chain[i-1]`, the list holds `self.chain[i...]`.
Mirrors the three checks and the early `return False`. -/
def chainChecks (H : BlockData → String) (difficulty : Nat) :
    Block → List Block → Bool
  | _, [] => true
  | prev, cur :: rest =>
      if cur.hash != Block.calculate_hash H cur then false
      else if cur.previous_hash != prev.hash then false
      else if !startsWithZeros cur.hash.data difficulty then false
      else chainChecks H difficulty cur rest

/-- `is_chain_valid`: run the three checks for every index from 1 to
`len(chain) - 1`; an empty or one-block chain is valid. -/
def QuantumBlockchain.is_chain_valid (H : BlockData → String)
    (s : QuantumBlockchain) : Bool :=
  match s.chain with
  | [] => true
  | g :: rest => chainChecks H s.difficulty g rest

/-- The states reachable from a freshly constructed ledger through the
public API (`add_transaction` and `mine_pending_transactions`; calls that
raise or run out of mining fuel produce no new state). -/
inductive Reachable (H : BlockData → String) (difficulty : Nat) :
    QuantumBlockchain → Prop where
  | init : ∀ ts fuel s, QuantumBlockchain.init H difficulty ts fuel = some s →
      Reachable H difficulty s
  | addTx : ∀ s t s', Reachable H difficulty s →
      QuantumBlockchain.add_transaction s t = some s' →
      Reachable H difficulty s'
  | mine : ∀ s a ts fuel b s', Reachable H difficulty s →
      QuantumBlockchain.mine_pending_transactions H s a ts fuel =
        some (b, s') →
      Reachable H difficulty s'

/-- `l[i]` with an explicit bound proof. -/
def nth (l : List Block) (i : Nat) (h : i < l.length) : Block := l[i]

/-- The block data obtained by replacing only the nonce. -/
def Block.dataWithNonce (b : Block) (n : Nat) : BlockData :=
  ⟨b.index, b.timestamp, b.transactions, b.previous_hash, n⟩

/-- Some attempt of the mining search succeeds: either the current stored
hash already satisfies the difficulty predicate, or some later nonce yields
a digest that does. This is the spec's justification for termination
("digest outputs ... contain the target prefix with positive probability
per attempt") distilled into the property it implies of the digest. -/
def Solvable (H : BlockData → String) (d : Nat) (b : Block) : Prop :=
  startsWithZeros b.hash.data d = true ∨
  ∃ n, b.nonce < n ∧
    startsWithZeros (H (Block.dataWithNonce b n)).data d = true

/-- The block preceding index `i` of the scanned suffix: for `i = 0` the
block handed to the scan, otherwise the suffix's block `i - 1`. -/
def prevAt (prev : Block) (l : List Block) : Nat → Block
  | 0 => prev
  | j + 1 => l.getD j prev

/-- The structural chain invariant on a block list: non-empty, genesis link
`"0"`, block `i` carries index `i` and links to block `i - 1`'s stored
hash. -/
def ChainListInv (l : List Block) : Prop :=
  l ≠ [] ∧
  (∀ g, l.head? = some g → g.previous_hash = "0") ∧
  (∀ i, ∀ h : i < l.length, (nth l i h).index = i) ∧
  (∀ i, ∀ h : i < l.length, 1 ≤ i →
    (nth l i h).previous_hash = (nth l (i - 1) (by omega)).hash)

/-- The structural chain invariant of a ledger state. -/
def ChainInv (s : QuantumBlockchain) : Prop := ChainListInv s.chain

/-- The net contribution of one transaction to `address`, in the words of
the spec: its amount is added when the to-field matches and subtracted when
the from-field matches. -/
def txDelta (address : String) (t : Tx) : Int :=
  (if txGet t "to" == some (PyVal.str address) then txAmount t else 0) -
  (if txGet t "from" == some (PyVal.str address) then txAmount t else 0)

/-- The spec's balance: the fold, starting from zero, of the per-transaction
contributions over a transaction sequence. -/
def balanceSpec (address : String) (txs : List Tx) : Int :=
  txs.foldl (fun acc t => acc + txDelta address t) 0

/-- `b'` differs from `b` in exactly one stored field, which holds a
different value; all other fields agree. -/
def OneFieldDiff (b b' : Block) : Prop :=
  (b'.index ≠ b.index ∧ b'.timestamp = b.timestamp ∧
    b'.transactions = b.transactions ∧
    b'.previous_hash = b.previous_hash ∧ b'.nonce = b.nonce ∧
    b'.hash = b.hash) ∨
  (b'.index = b.index ∧ b'.timestamp ≠ b.timestamp ∧
    b'.transactions = b.transactions ∧
    b'.previous_hash = b.previous_hash ∧ b'.nonce = b.nonce ∧
    b'.hash = b.hash) ∨
  (b'.index = b.index ∧ b'.timestamp = b.timestamp ∧
    b'.transactions ≠ b.transactions ∧
    b'.previous_hash = b.previous_hash ∧ b'.nonce = b.nonce ∧
    b'.hash = b.hash) ∨
  (b'.index = b.index ∧ b'.timestamp = b.timestamp ∧
    b'.transactions = b.transactions ∧
    b'.previous_hash ≠ b.previous_hash ∧ b'.nonce = b.nonce ∧
    b'.hash = b.hash) ∨
  (b'.index = b.index ∧ b'.timestamp = b.timestamp ∧
    b'.transactions = b.transactions ∧
    b'.previous_hash = b.previous_hash ∧ b'.nonce ≠ b.nonce ∧
    b'.hash = b.hash) ∨
  (b'.index = b.index ∧ b'.timestamp = b.timestamp ∧
    b'.transactions = b.transactions ∧
    b'.previous_hash = b.previous_hash ∧ b'.nonce = b.nonce ∧
    b'.hash ≠ b.hash)

/-- In-place mutation of one chain entry, as a tamperer would perform it. -/
def QuantumBlockchain.setBlock (s : QuantumBlockchain) (i : Nat)
    (b' : Block) : QuantumBlockchain :=
  { s with chain := s.chain.set i b' }

def encNat : Nat → List Char
  | 0 => ['#']
  | n + 1 => '1' :: encNat n

def decNat : List Char → Option (Nat × List Char)
  | [] => none
  | c :: r =>
      if c = '#' then some (0, r)
      else if c = '1' then
        match decNat r with
        | some (n, r') => some (n + 1, r')
        | none => none
      else none

def encStr (s : List Char) : List Char := encNat s.length ++ s

def decStr (l : List Char) : Option (List Char × List Char) :=
  match decNat l with
  | some (n, r) =>
      if n ≤ r.length then some (r.take n, r.drop n) else none
  | none => none

def encVal : PyVal → List Char
  | PyVal.str s => 'S' :: encStr s.data
  | PyVal.num (Int.ofNat n) => 'N' :: encNat n
  | PyVal.num (Int.negSucc n) => 'M' :: encNat n

def decVal : List Char → Option (PyVal × List Char)
  | [] => none
  | c :: r =>
      if c = 'S' then
        match decStr r with
        | some (s, r') => some (PyVal.str (String.mk s), r')
        | none => none
      else if c = 'N' then
        match decNat r with
        | some (n, r') => some (PyVal.num (Int.ofNat n), r')
        | none => none
      else if c = 'M' then
        match decNat r with
        | some (n, r') => some (PyVal.num (Int.negSucc n), r')
        | none => none
      else none

def encPair (p : String × PyVal) : List Char :=
  encStr p.1.data ++ encVal p.2

def decPair (l : List Char) : Option ((String × PyVal) × List Char) :=
  match decStr l with
  | some (k, r) =>
      match decVal r with
      | some (v, r') => some ((String.mk k, v), r')
      | none => none
  | none => none

def encPairs : List (String × PyVal) → List Char
  | [] => []
  | p :: ps => encPair p ++ encPairs ps

def decPairs : Nat → List Char → Option (Tx × List Char)
  | 0, l => some ([], l)
  | n + 1, l =>
      match decPair l with
      | some (p, r) =>
          match decPairs n r with
          | some (ps, r') => some (p :: ps, r')
          | none => none
      | none => none

def encTx (t : Tx) : List Char := encNat t.length ++ encPairs t

def decTx (l : List Char) : Option (Tx × List Char) :=
  match decNat l with
  | some (n, r) => decPairs n r
  | none => none

def encTxList : List Tx → List Char
  | [] => []
  | t :: ts => encTx t ++ encTxList ts

def decTxList : Nat → List Char → Option (List Tx × List Char)
  | 0, l => some ([], l)
  | n + 1, l =>
      match decTx l with
      | some (t, r) =>
          match decTxList n r with
          | some (ts, r') => some (t :: ts, r')
          | none => none
      | none => none

def encTxs (l : List Tx) : List Char := encNat l.length ++ encTxList l

def decTxs (l : List Char) : Option (List Tx × List Char) :=
  match decNat l with
  | some (n, r) => decTxList n r
  | none => none

def encodeBD (bd : BlockData) : List Char :=
  encNat bd.index ++ encNat bd.timestamp ++ encTxs bd.transactions ++
    encStr bd.previous_hash.data ++ encNat bd.nonce

def decodeBD (l : List Char) : Option (BlockData × List Char) :=
  match decNat l with
  | some (i, r1) =>
      match decNat r1 with
      | some (ts, r2) =>
          match decTxs r2 with
          | some (txs, r3) =>
              match decStr r3 with
              | some (p, r4) =>
                  match decNat r4 with
                  | some (nc, r5) =>
                      some (⟨i, ts, txs, String.mk p, nc⟩, r5)
                  | none => none
              | none => none
          | none => none
      | none => none
  | none => none

/-- The concrete digest: serialize the block data. -/
def H0 : BlockData → String := fun bd => String.mk (encodeBD bd)

/-- A degenerate digest whose output is always `"0"`; with difficulty 0 or
1 every mining search accepts at once. -/
def Hzero : BlockData → String := fun _ => "0"

/-- The genesis block a fresh difficulty-0 ledger holds under `Hzero`. -/
def gB : Block := ⟨0, 0, genesisTxs, "0", 0, "0"⟩

/-- A fresh difficulty-0 ledger under `Hzero`. -/
def sGen : QuantumBlockchain := ⟨[gB], 0, [], 100⟩

/-- The block mined from `sGen`'s (empty) pool. -/
def bNext : Block := ⟨1, 1, [], "0", 0, "0"⟩

/-- The ledger after `sGen` mines for `"m"`. -/
def sMined : QuantumBlockchain := ⟨[gB, bNext], 0, [rewardTx "m" 100], 100⟩

/-- A well-formed transaction. -/
def tGood : Tx :=
  [("from", PyVal.str "a"), ("to", PyVal.str "b"), ("amount", PyVal.num 5)]

/-- A transaction missing its `"from"` key. -/
def tBad : Tx := [("to", PyVal.str "x"), ("amount", PyVal.num 5)]

/-- A transaction whose `"from"` value is the empty string. -/
def tEmptyFrom : Tx :=
  [("from", PyVal.str ""), ("to", PyVal.str "b"), ("amount", PyVal.num 5)]

/-- `sGen` after accepting `tGood`. -/
def sGenPlus : QuantumBlockchain := ⟨[gB], 0, [tGood], 100⟩

/-- `sGen` after accepting `tEmptyFrom`. -/
def sEF : QuantumBlockchain := ⟨[gB], 0, [tEmptyFrom], 100⟩

/-- A one-block ledger holding one `alice → bob` transfer of 50. -/
def s5 : QuantumBlockchain :=
  ⟨[⟨0, 0, [[("from", PyVal.str "alice"), ("to", PyVal.str "bob"),
    ("amount", PyVal.num 50)]], "0", 0, "0"⟩], 0, [], 100⟩

/-- A self-transfer. -/
def tSelf : Tx :=
  [("from", PyVal.str "alice"), ("to", PyVal.str "alice"),
   ("amount", PyVal.num 7)]

/-- Genesis block under the injective digest `H0`. -/
def gB8 : Block := Block.make H0 0 0 genesisTxs "0"

/-- A second block chained onto `gB8` under `H0`. -/
def b8 : Block := Block.make H0 1 1 [] gB8.hash

/-- A valid two-block difficulty-0 chain under `H0`. -/
def s8 : QuantumBlockchain := ⟨[gB8, b8], 0, [], 100⟩

/-- `b8` with only its nonce changed. -/
def b8t : Block := { b8 with nonce := b8.nonce + 1 }

/-- A solved block for the mining witnesses. -/
def b4 : Block := ⟨0, 0, [], "0", 0, "0"⟩

/-! ### Theorems -/

theorem nth_cons_zero (b : Block) (l : List Block) (h : 0 < (b :: l).length) :
    nth (b :: l) 0 h = b := rfl

theorem nth_cons_succ (b : Block) (l : List Block) (i : Nat)
    (h : i + 1 < (b :: l).length) :
    nth (b :: l) (i + 1) h = nth l i (by simpa using h) := by
  simp [nth]

theorem nth_append_left (l m : List Block) (i : Nat) (h : i < l.length)
    (h' : i < (l ++ m).length) : nth (l ++ m) i h' = nth l i h := by
  simp [nth, List.getElem_append_left h]

theorem nth_concat_length (l : List Block) (b : Block)
    (h : l.length < (l ++ [b]).length) : nth (l ++ [b]) l.length h = b := by
  simp [nth]

theorem nth_getLast (l : List Block) (hne : l ≠ [])
    (h : l.length - 1 < l.length) : l.getLast hne = nth l (l.length - 1) h := by
  simp [nth, List.getLast_eq_getElem]

theorem startsWithZeros_zero (l : List Char) : startsWithZeros l 0 = true := by
  cases l <;> rfl

/-- `startsWithZeros` says exactly that the first `d` characters exist and
are `'0'`. -/
theorem startsWithZeros_iff (l : List Char) (d : Nat) :
    startsWithZeros l d = true ↔ l.take d = List.replicate d '0' := by
  induction d generalizing l with
  | zero => simp [startsWithZeros]
  | succ d ih =>
      cases l with
      | nil => simp [startsWithZeros, List.replicate_succ]
      | cons c cs =>
          simp only [startsWithZeros, Bool.and_eq_true, beq_iff_eq,
            List.take_succ_cons, List.replicate_succ, List.cons.injEq, ih]

theorem mineStep_fields (H : BlockData → String) (b : Block) :
    (Block.mineStep H b).index = b.index ∧
    (Block.mineStep H b).timestamp = b.timestamp ∧
    (Block.mineStep H b).transactions = b.transactions ∧
    (Block.mineStep H b).previous_hash = b.previous_hash ∧
    (Block.mineStep H b).nonce = b.nonce + 1 ∧
    (Block.mineStep H b).hash = Block.calculate_hash H (Block.mineStep H b)
    := by
  simp [Block.mineStep, Block.calculate_hash, Block.blockData]

/-- What the mining loop guarantees when it returns: the data fields are
those of the input block (only the nonce may change), the resulting hash
satisfies the difficulty predicate, and when the input block's stored hash
agreed with its recomputed hash (as every constructed block's does), so
does the output's. -/
theorem mine_block_spec (H : BlockData → String) (d : Nat) :
    ∀ (fuel : Nat) (b b' : Block),
    Block.mine_block H d fuel b = some b' →
    b'.index = b.index ∧ b'.timestamp = b.timestamp ∧
    b'.transactions = b.transactions ∧
    b'.previous_hash = b.previous_hash ∧
    startsWithZeros b'.hash.data d = true ∧
    (b.hash = Block.calculate_hash H b →
      b'.hash = Block.calculate_hash H b') := by
  intro fuel
  induction fuel with
  | zero =>
      intro b b' hmine
      simp only [Block.mine_block] at hmine
      split at hmine
      · cases hmine
        refine ⟨rfl, rfl, rfl, rfl, ?_, fun h => h⟩
        assumption
      · exact absurd hmine (by simp)
  | succ fuel ih =>
      intro b b' hmine
      simp only [Block.mine_block] at hmine
      split at hmine
      · cases hmine
        refine ⟨rfl, rfl, rfl, rfl, ?_, fun h => h⟩
        assumption
      · obtain ⟨h1, h2, h3, h4, h5, h6⟩ := ih (Block.mineStep H b) b' hmine
        obtain ⟨f1, f2, f3, f4, _, f6⟩ := mineStep_fields H b
        exact ⟨h1.trans f1, h2.trans f2, h3.trans f3, h4.trans f4, h5,
          fun _ => h6 f6⟩

/-- With difficulty 0 the loop's guard is immediately satisfied: the block
is returned unchanged, whatever the fuel. -/
theorem mine_block_zero (H : BlockData → String) (fuel : Nat) (b : Block) :
    Block.mine_block H 0 fuel b = some b := by
  cases fuel <;> simp [Block.mine_block, startsWithZeros_zero]

theorem mine_block_of_solved (H : BlockData → String) (d fuel : Nat)
    (b : Block) (h : startsWithZeros b.hash.data d = true) :
    Block.mine_block H d fuel b = some b := by
  cases fuel <;> simp [Block.mine_block, h]

theorem mineStep_dataWithNonce (H : BlockData → String) (b : Block)
    (n : Nat) : (Block.mineStep H b).dataWithNonce n = b.dataWithNonce n :=
  rfl

theorem mine_block_terminates_aux (H : BlockData → String) (d n : Nat) :
    ∀ (k : Nat) (b : Block),
    (startsWithZeros b.hash.data d = true ∨
      (b.nonce < n ∧ n - b.nonce ≤ k ∧
        startsWithZeros (H (Block.dataWithNonce b n)).data d = true)) →
    ∃ b', Block.mine_block H d k b = some b' := by
  intro k
  induction k with
  | zero =>
      intro b hb
      rcases hb with hb | ⟨h1, h2, _⟩
      · exact ⟨b, mine_block_of_solved H d 0 b hb⟩
      · omega
  | succ k ih =>
      intro b hb
      rcases hb with hb | ⟨h1, h2, h3⟩
      · exact ⟨b, mine_block_of_solved H d (k + 1) b hb⟩
      · by_cases hs : startsWithZeros b.hash.data d = true
        · exact ⟨b, mine_block_of_solved H d (k + 1) b hs⟩
        · have hstep : ∃ b', Block.mine_block H d k (Block.mineStep H b)
              = some b' := by
            rcases Nat.lt_or_ge (b.nonce + 1) n with hlt | hge
            · refine ih (Block.mineStep H b) (Or.inr ⟨?_, ?_, ?_⟩)
              · simpa [Block.mineStep] using hlt
              · simp only [Block.mineStep]
                omega
              · simpa [mineStep_dataWithNonce] using h3
            · have hn : n = b.nonce + 1 := by omega
              refine ih (Block.mineStep H b) (Or.inl ?_)
              have : (Block.mineStep H b).hash =
                  H (Block.dataWithNonce b n) := by
                simp [Block.mineStep, Block.calculate_hash, Block.blockData,
                  Block.dataWithNonce, hn]
              rw [this]
              exact h3
          obtain ⟨b', hb'⟩ := hstep
          refine ⟨b', ?_⟩
          simp only [Block.mine_block, hs, if_false]
          exact hb'

/-- Whenever some nonce solves the puzzle, enough fuel makes the mining
loop return. -/
theorem mine_block_terminates (H : BlockData → String) (d : Nat)
    (b : Block) (h : Solvable H d b) :
    ∃ fuel b', Block.mine_block H d fuel b = some b' := by
  rcases h with h | ⟨n, h1, h2⟩
  · exact ⟨0, mine_block_terminates_aux H d 0 0 b (Or.inl h)⟩
  · exact ⟨n - b.nonce,
      mine_block_terminates_aux H d n (n - b.nonce) b
        (Or.inr ⟨h1, Nat.le_refl _, h2⟩)⟩

theorem add_transaction_some (s : QuantumBlockchain) (t : Tx)
    (s' : QuantumBlockchain)
    (h : QuantumBlockchain.add_transaction s t = some s') :
    s' = { s with pending_transactions := s.pending_transactions ++ [t] } ∧
    txHas t "from" = true ∧ txHas t "to" = true ∧
    txHas t "amount" = true := by
  simp only [QuantumBlockchain.add_transaction] at h
  split at h
  · cases h
  · rename_i hcond
    cases h
    simp only [Bool.or_eq_true, Bool.not_eq_true'] at hcond
    push_neg at hcond
    refine ⟨rfl, ?_, ?_, ?_⟩ <;> simp_all [Bool.not_eq_false]

theorem add_transaction_none (s : QuantumBlockchain) (t : Tx) :
    QuantumBlockchain.add_transaction s t = none ↔
    (txHas t "from" = false ∨ txHas t "to" = false ∨
      txHas t "amount" = false) := by
  simp only [QuantumBlockchain.add_transaction]
  split
  · rename_i hcond
    simp only [Bool.or_eq_true, Bool.not_eq_true'] at hcond
    simp only [true_iff]
    tauto
  · rename_i hcond
    simp only [Bool.or_eq_true, Bool.not_eq_true'] at hcond
    push_neg at hcond
    simp_all

/-- Everything `mine_pending_transactions` promises about a successful
call: the returned block extends the pre-call chain, snapshots the
pre-call pool, links to the pre-call latest block, and the pool is
replaced by the single reward transaction. -/
theorem mine_pending_spec (H : BlockData → String)
    (s : QuantumBlockchain) (a : String) (ts fuel : Nat) (b : Block)
    (s' : QuantumBlockchain)
    (h : QuantumBlockchain.mine_pending_transactions H s a ts fuel =
      some (b, s')) :
    ∃ (latest : Block), s.chain.getLast? = some latest ∧
    b.index = s.chain.length ∧ b.timestamp = ts ∧
    b.transactions = s.pending_transactions ∧
    b.previous_hash = latest.hash ∧
    startsWithZeros b.hash.data s.difficulty = true ∧
    b.hash = Block.calculate_hash H b ∧
    s'.chain = s.chain ++ [b] ∧
    s'.pending_transactions = [rewardTx a s.mining_reward] ∧
    s'.difficulty = s.difficulty ∧ s'.mining_reward = s.mining_reward := by
  simp only [QuantumBlockchain.mine_pending_transactions] at h
  split at h
  · cases h
  · rename_i latest hlast
    split at h
    · cases h
    · rename_i nb hmine
      obtain ⟨h1, h2, h3, h4, h5, h6⟩ := mine_block_spec H s.difficulty
        fuel _ nb hmine
      cases h
      refine ⟨latest, hlast, ?_, ?_, ?_, ?_, h5, ?_, rfl, rfl, rfl, rfl⟩
      · simpa [Block.make] using h1
      · simpa [Block.make] using h2
      · simpa [Block.make] using h3
      · simpa [Block.make] using h4
      · exact h6 rfl

/-- What a successful construction yields: a one-block chain holding the
mined genesis block. -/
theorem init_spec (H : BlockData → String) (d ts fuel : Nat)
    (s : QuantumBlockchain)
    (h : QuantumBlockchain.init H d ts fuel = some s) :
    ∃ g, s = ⟨[g], d, [], 100⟩ ∧ g.index = 0 ∧ g.timestamp = ts ∧
      g.transactions = genesisTxs ∧ g.previous_hash = "0" ∧
      startsWithZeros g.hash.data d = true ∧
      g.hash = Block.calculate_hash H g := by
  simp only [QuantumBlockchain.init] at h
  split at h
  · rename_i g hmine
    cases h
    obtain ⟨h1, h2, h3, h4, h5, h6⟩ := mine_block_spec H d fuel _ g hmine
    refine ⟨g, rfl, ?_, ?_, ?_, ?_, h5, ?_⟩
    · simpa [Block.make] using h1
    · simpa [Block.make] using h2
    · simpa [Block.make] using h3
    · simpa [Block.make] using h4
    · exact h6 rfl
  · cases h

theorem chainChecks_cons (H : BlockData → String) (d : Nat)
    (prev cur : Block) (rest : List Block) :
    chainChecks H d prev (cur :: rest) = true ↔
      (cur.hash = Block.calculate_hash H cur ∧
       cur.previous_hash = prev.hash ∧
       startsWithZeros cur.hash.data d = true ∧
       chainChecks H d cur rest = true) := by
  simp only [chainChecks]
  by_cases h1 : cur.hash = Block.calculate_hash H cur
  · by_cases h2 : cur.previous_hash = prev.hash
    · by_cases h3 : startsWithZeros cur.hash.data d = true
      · simp [h1, h2, h3]
      · simp [h1, h2, h3]
    · simp [h1, h2]
  · simp [h1]

theorem prevAt_cons (prev cur : Block) (rest : List Block) (j : Nat)
    (hj : j < rest.length) :
    prevAt prev (cur :: rest) (j + 1) = prevAt cur rest j := by
  cases j with
  | zero => rfl
  | succ k =>
      have hk : k < rest.length := by omega
      simp only [prevAt, List.getD_cons_succ]
      rw [List.getD_eq_getElem rest prev hk, List.getD_eq_getElem rest cur hk]

theorem prevAt_eq_nth (g : Block) (rest : List Block) (j : Nat)
    (hj : j < rest.length) (hj' : j < (g :: rest).length) :
    prevAt g rest j = nth (g :: rest) j hj' := by
  cases j with
  | zero => rfl
  | succ k =>
      have hk : k < rest.length := by omega
      rw [nth_cons_succ]
      simp only [prevAt]
      rw [List.getD_eq_getElem rest g hk]
      rfl

theorem chainChecks_iff (H : BlockData → String) (d : Nat) :
    ∀ (l : List Block) (prev : Block),
    chainChecks H d prev l = true ↔
      ∀ i, ∀ h : i < l.length,
        (nth l i h).hash = Block.calculate_hash H (nth l i h) ∧
        (nth l i h).previous_hash = (prevAt prev l i).hash ∧
        startsWithZeros (nth l i h).hash.data d = true := by
  intro l
  induction l with
  | nil =>
      intro prev
      simp [chainChecks]
  | cons cur rest ih =>
      intro prev
      rw [chainChecks_cons]
      constructor
      · rintro ⟨h1, h2, h3, h4⟩ i hi
        match i with
        | 0 => exact ⟨h1, h2, h3⟩
        | j + 1 =>
            have hj : j < rest.length := by
              simpa using hi
            obtain ⟨g1, g2, g3⟩ := (ih cur).mp h4 j hj
            rw [nth_cons_succ, prevAt_cons prev cur rest j hj]
            exact ⟨g1, g2, g3⟩
      · intro hall
        have h0 := hall 0 (by simp)
        refine ⟨h0.1, h0.2.1, h0.2.2, (ih cur).mpr ?_⟩
        intro j hj
        have hj' : j + 1 < (cur :: rest).length := by simpa using hj
        obtain ⟨g1, g2, g3⟩ := hall (j + 1) hj'
        rw [nth_cons_succ, prevAt_cons prev cur rest j hj] at *
        exact ⟨g1, g2, g3⟩

/-- Reindexing the per-suffix checks as per-chain checks over indices 1 to
`length - 1`. -/
theorem checks_shift (H : BlockData → String) (d : Nat) (g : Block)
    (rest : List Block) :
    (∀ i, ∀ h : i < rest.length,
        (nth rest i h).hash = Block.calculate_hash H (nth rest i h) ∧
        (nth rest i h).previous_hash = (prevAt g rest i).hash ∧
        startsWithZeros (nth rest i h).hash.data d = true) ↔
    (∀ i, ∀ h : i < (g :: rest).length, 1 ≤ i →
        ((nth (g :: rest) i h).hash =
          Block.calculate_hash H (nth (g :: rest) i h) ∧
         (nth (g :: rest) i h).previous_hash =
          (nth (g :: rest) (i - 1) (by omega)).hash ∧
         startsWithZeros (nth (g :: rest) i h).hash.data d = true)) := by
  constructor
  · intro hall i hi h1
    obtain ⟨j, rfl⟩ : ∃ j, i = j + 1 := ⟨i - 1, by omega⟩
    have hj : j < rest.length := by simpa using hi
    obtain ⟨g1, g2, g3⟩ := hall j hj
    have e1 : nth (g :: rest) (j + 1) hi = nth rest j hj := nth_cons_succ ..
    have e2 : nth (g :: rest) (j + 1 - 1) (by omega) = prevAt g rest j :=
      (prevAt_eq_nth g rest j hj (by simp ; omega)).symm
    rw [e1, e2]
    exact ⟨g1, g2, g3⟩
  · intro hall j hj
    have hi : j + 1 < (g :: rest).length := by simpa using hj
    obtain ⟨g1, g2, g3⟩ := hall (j + 1) hi (by omega)
    have e1 : nth (g :: rest) (j + 1) hi = nth rest j hj := nth_cons_succ ..
    have e2 : nth (g :: rest) (j + 1 - 1) (by omega) = prevAt g rest j :=
      (prevAt_eq_nth g rest j hj (by simp ; omega)).symm
    rw [e1] at g1 g2 g3
    exact ⟨g1, g2.trans (congrArg Block.hash e2), g3⟩

/-- `is_chain_valid` in terms of the three per-index checks over the whole
chain, indices 1 to `length - 1`. -/
theorem is_chain_valid_iff (H : BlockData → String)
    (s : QuantumBlockchain) :
    QuantumBlockchain.is_chain_valid H s = true ↔
      ∀ i, ∀ h : i < s.chain.length, 1 ≤ i →
        ((nth s.chain i h).hash =
          Block.calculate_hash H (nth s.chain i h) ∧
         (nth s.chain i h).previous_hash =
          (nth s.chain (i - 1) (by omega)).hash ∧
         startsWithZeros (nth s.chain i h).hash.data s.difficulty = true)
    := by
  obtain ⟨c, dif, pend, rew⟩ := s
  cases c with
  | nil =>
      constructor
      · intro _ i h h1
        simp at h
      · intro _
        rfl
  | cons g rest =>
      exact (chainChecks_iff H dif rest g).trans (checks_shift H dif g rest)

theorem chainInv_append (l : List Block) (b : Block) (hne : l ≠ [])
    (hhead : ∀ g, l.head? = some g → g.previous_hash = "0")
    (hidx : ∀ i, ∀ h : i < l.length, (nth l i h).index = i)
    (hlink : ∀ i, ∀ h : i < l.length, 1 ≤ i →
      (nth l i h).previous_hash = (nth l (i - 1) (by omega)).hash)
    (hb : b.index = l.length)
    (hbl : b.previous_hash = (l.getLast hne).hash) :
    ChainListInv (l ++ [b]) := by
  have hlen : (l ++ [b]).length = l.length + 1 := by simp
  refine ⟨by simp, ?_, ?_, ?_⟩
  · intro g hg
    apply hhead
    cases l with
    | nil => exact absurd rfl hne
    | cons a t => simpa using hg
  · intro i h
    rcases Nat.lt_or_ge i l.length with hi | hi
    · rw [nth_append_left l [b] i hi h]
      exact hidx i hi
    · have hil : i = l.length := by omega
      subst hil
      rw [nth_concat_length]
      exact hb
  · intro i h h1
    rcases Nat.lt_or_ge i l.length with hi | hi
    · have hi1 : i - 1 < l.length := by omega
      rw [nth_append_left l [b] i hi h, nth_append_left l [b] (i - 1) hi1]
      exact hlink i hi h1
    · have hil : i = l.length := by omega
      subst hil
      have hlpos : 0 < l.length := by omega
      have hi1 : l.length - 1 < l.length := by omega
      rw [nth_concat_length, nth_append_left l [b] (l.length - 1) hi1]
      rw [hbl, nth_getLast l hne hi1]

/-- Every state reachable through the public API satisfies the chain
invariant. -/
theorem reachable_chainInv (H : BlockData → String) (d : Nat)
    (s : QuantumBlockchain) (hr : Reachable H d s) : ChainInv s := by
  induction hr with
  | init ts fuel s h =>
      obtain ⟨g, rfl, hgi, _, _, hgp, _, _⟩ := init_spec H d ts fuel s h
      refine ⟨by simp, ?_, ?_, ?_⟩
      · intro g' hg'
        simp only [List.head?_cons, Option.some.injEq] at hg'
        rw [← hg']
        exact hgp
      · intro i h
        match i, h with
        | 0, _ => exact hgi
      · intro i h h1
        match i, h with
        | 0, _ => omega
  | addTx s t s' hr hadd ih =>
      obtain ⟨rfl, -, -, -⟩ :=
        add_transaction_some s t s' hadd
      exact ih
  | mine s a ts fuel b s' hr hm ih =>
      obtain ⟨latest, hlast, hbidx, -, -, hbprev, -, -, hchain, -, -, -⟩ :=
        mine_pending_spec H s a ts fuel b s' hm
      obtain ⟨hne, hhead, hidx, hlink⟩ := ih
      have hlatest : latest = s.chain.getLast hne := by
        rw [List.getLast?_eq_getLast s.chain hne] at hlast
        exact (Option.some.injEq _ _ ▸ hlast).symm
      have := chainInv_append s.chain b hne hhead hidx hlink hbidx
        (by rw [hbprev, hlatest])
      unfold ChainInv
      rw [hchain]
      exact this

theorem balStep_eq (address : String) (bal : Int) (t : Tx) :
    balStep address bal t = bal + txDelta address t := by
  unfold balStep txDelta
  cases hf : txGet t "from" == some (PyVal.str address) <;>
    cases ht : txGet t "to" == some (PyVal.str address) <;>
      simp [hf, ht] <;> ring

theorem foldl_add_delta (address : String) (l : List Tx) :
    ∀ a : Int, l.foldl (fun acc t => acc + txDelta address t) a =
      a + balanceSpec address l := by
  induction l with
  | nil => intro a; simp [balanceSpec]
  | cons t l ih =>
      intro a
      simp only [balanceSpec, List.foldl_cons]
      rw [ih (a + txDelta address t), ih (0 + txDelta address t)]
      ring

theorem foldl_balStep (address : String) (l : List Tx) :
    ∀ a : Int, l.foldl (balStep address) a = a + balanceSpec address l := by
  induction l with
  | nil => intro a; simp [balanceSpec]
  | cons t l ih =>
      intro a
      simp only [List.foldl_cons, balStep_eq]
      rw [ih (a + txDelta address t)]
      have h2 : balanceSpec address (t :: l) =
          (0 + txDelta address t) + balanceSpec address l := by
        simp only [balanceSpec, List.foldl_cons]
        rw [foldl_add_delta]
        rfl
      rw [h2]
      ring

theorem balanceSpec_append (address : String) (x y : List Tx) :
    balanceSpec address (x ++ y) =
      balanceSpec address x + balanceSpec address y := by
  unfold balanceSpec
  rw [List.foldl_append, foldl_add_delta]
  rfl

/-- `get_balance` computes exactly the spec's fold over the concatenation
of all blocks' transactions, in chain order. -/
theorem get_balance_eq (s : QuantumBlockchain) (address : String) :
    QuantumBlockchain.get_balance s address =
      balanceSpec address (s.chain.map Block.transactions).flatten := by
  unfold QuantumBlockchain.get_balance
  have aux : ∀ (l : List Block) (a : Int),
      l.foldl (fun bal b => b.transactions.foldl (balStep address) bal) a =
        a + balanceSpec address (l.map Block.transactions).flatten := by
    intro l
    induction l with
    | nil => intro a; simp [balanceSpec]
    | cons b l ih =>
        intro a
        simp only [List.foldl_cons, List.map_cons, List.flatten_cons]
        rw [ih, foldl_balStep, balanceSpec_append]
        ring
  rw [aux]
  ring

theorem nth_set_self (l : List Block) (i : Nat) (b' : Block)
    (h : i < l.length) (h' : i < (l.set i b').length) :
    nth (l.set i b') i h' = b' := by
  simp only [nth]
  rw [List.getElem_set_self]

theorem nth_set_ne (l : List Block) (i j : Nat) (b' : Block) (hij : i ≠ j)
    (hj : j < l.length) (hj' : j < (l.set i b').length) :
    nth (l.set i b') j hj' = nth l j hj := by
  simp only [nth]
  rw [List.getElem_set_ne hij]

theorem blockData_fields (b b' : Block) (h : b'.blockData = b.blockData) :
    b'.index = b.index ∧ b'.timestamp = b.timestamp ∧
    b'.transactions = b.transactions ∧
    b'.previous_hash = b.previous_hash ∧ b'.nonce = b.nonce := by
  unfold Block.blockData at h
  exact ⟨congrArg BlockData.index h, congrArg BlockData.timestamp h,
    congrArg BlockData.transactions h,
    congrArg BlockData.previous_hash h, congrArg BlockData.nonce h⟩

/-- Changing any single stored field of a non-genesis block of a valid
chain to a different value makes `is_chain_valid` return `false`, provided
the digest is collision-free (injective), the idealization of the spec's
collision-resistant hash primitive. -/
theorem tampered_invalid (H : BlockData → String)
    (hInj : Function.Injective H) (s : QuantumBlockchain) (i : Nat)
    (h : i < s.chain.length) (h1 : 1 ≤ i) (b' : Block)
    (hdiff : OneFieldDiff (nth s.chain i h) b')
    (hvalid : QuantumBlockchain.is_chain_valid H s = true) :
    QuantumBlockchain.is_chain_valid H
      (QuantumBlockchain.setBlock s i b') = false := by
  obtain ⟨A, B, C⟩ := (is_chain_valid_iff H s).mp hvalid i h h1
  cases hv' : QuantumBlockchain.is_chain_valid H
      (QuantumBlockchain.setBlock s i b') with
  | false => rfl
  | true =>
      exfalso
      have hall := (is_chain_valid_iff H _).mp hv'
      have hi' : i < (QuantumBlockchain.setBlock s i b').chain.length := by
        simp only [QuantumBlockchain.setBlock, List.length_set]
        exact h
      obtain ⟨A', B', C'⟩ := hall i hi' h1
      have hi1 : i - 1 < s.chain.length := by omega
      have hi1' : i - 1 <
          (QuantumBlockchain.setBlock s i b').chain.length := by
        simp only [QuantumBlockchain.setBlock, List.length_set]
        omega
      have e1 : nth (QuantumBlockchain.setBlock s i b').chain i hi' = b' :=
        nth_set_self s.chain i b' h hi'
      have e2 : nth (QuantumBlockchain.setBlock s i b').chain (i - 1) hi1'
          = nth s.chain (i - 1) hi1 :=
        nth_set_ne s.chain i (i - 1) b' (by omega) hi1 hi1'
      rw [e1] at A' B' C'
      have B'' : b'.previous_hash = (nth s.chain (i - 1) hi1).hash :=
        B'.trans (congrArg Block.hash e2)
      rcases hdiff with ⟨hne, f2, f3, f4, f5, f6⟩ |
        ⟨f1, hne, f3, f4, f5, f6⟩ | ⟨f1, f2, hne, f4, f5, f6⟩ |
        ⟨f1, f2, f3, hne, f5, f6⟩ | ⟨f1, f2, f3, f4, hne, f6⟩ |
        ⟨f1, f2, f3, f4, f5, hne⟩
      · have hdata : H b'.blockData = H (nth s.chain i h).blockData := by
          have A2 := A
          have A3 := A'
          simp only [Block.calculate_hash] at A2 A3
          rw [← A3, f6]
          exact A2
        exact hne (blockData_fields _ _ (hInj hdata)).1
      · have hdata : H b'.blockData = H (nth s.chain i h).blockData := by
          have A2 := A
          have A3 := A'
          simp only [Block.calculate_hash] at A2 A3
          rw [← A3, f6]
          exact A2
        exact hne (blockData_fields _ _ (hInj hdata)).2.1
      · have hdata : H b'.blockData = H (nth s.chain i h).blockData := by
          have A2 := A
          have A3 := A'
          simp only [Block.calculate_hash] at A2 A3
          rw [← A3, f6]
          exact A2
        exact hne (blockData_fields _ _ (hInj hdata)).2.2.1
      · exact hne (B''.trans B.symm)
      · have hdata : H b'.blockData = H (nth s.chain i h).blockData := by
          have A2 := A
          have A3 := A'
          simp only [Block.calculate_hash] at A2 A3
          rw [← A3, f6]
          exact A2
        exact hne (blockData_fields _ _ (hInj hdata)).2.2.2.2
      · have hdata : b'.blockData = (nth s.chain i h).blockData := by
          simp only [Block.blockData, f1, f2, f3, f4, f5]
        have : b'.hash = (nth s.chain i h).hash := by
          rw [A', A]
          simp only [Block.calculate_hash, hdata]
        exact hne this

theorem decNat_enc : ∀ (n : Nat) (r : List Char),
    decNat (encNat n ++ r) = some (n, r) := by
  intro n
  induction n with
  | zero =>
      intro r
      simp [encNat, decNat]
  | succ n ih =>
      intro r
      have h1 : ('1' : Char) ≠ '#' := by decide
      simp [encNat, decNat, h1, ih]

theorem decStr_enc (s r : List Char) : decStr (encStr s ++ r) = some (s, r)
    := by
  unfold encStr decStr
  rw [List.append_assoc, decNat_enc]
  dsimp only
  rw [if_pos (by simp), List.take_left, List.drop_left]

theorem decVal_enc (v : PyVal) (r : List Char) :
    decVal (encVal v ++ r) = some (v, r) := by
  cases v with
  | str s =>
      simp [encVal, decVal, decStr_enc]
  | num i =>
      cases i with
      | ofNat n =>
          have h1 : ('N' : Char) ≠ 'S' := by decide
          simp [encVal, decVal, h1, decNat_enc]
      | negSucc n =>
          have h1 : ('M' : Char) ≠ 'S' := by decide
          have h2 : ('M' : Char) ≠ 'N' := by decide
          simp [encVal, decVal, h1, h2, decNat_enc]

theorem decPair_enc (p : String × PyVal) (r : List Char) :
    decPair (encPair p ++ r) = some (p, r) := by
  obtain ⟨k, v⟩ := p
  simp [encPair, decPair, List.append_assoc, decStr_enc, decVal_enc]

theorem decPairs_enc : ∀ (t : Tx) (r : List Char),
    decPairs t.length (encPairs t ++ r) = some (t, r) := by
  intro t
  induction t with
  | nil => intro r; simp [encPairs, decPairs]
  | cons p ps ih =>
      intro r
      simp [encPairs, decPairs, List.append_assoc, decPair_enc, ih]

theorem decTx_enc (t : Tx) (r : List Char) :
    decTx (encTx t ++ r) = some (t, r) := by
  simp [encTx, decTx, List.append_assoc, decNat_enc, decPairs_enc]

theorem decTxList_enc : ∀ (ts : List Tx) (r : List Char),
    decTxList ts.length (encTxList ts ++ r) = some (ts, r) := by
  intro ts
  induction ts with
  | nil => intro r; simp [encTxList, decTxList]
  | cons t ts ih =>
      intro r
      simp [encTxList, decTxList, List.append_assoc, decTx_enc, ih]

theorem decTxs_enc (ts : List Tx) (r : List Char) :
    decTxs (encTxs ts ++ r) = some (ts, r) := by
  simp [encTxs, decTxs, List.append_assoc, decNat_enc, decTxList_enc]

theorem decodeBD_enc (bd : BlockData) (r : List Char) :
    decodeBD (encodeBD bd ++ r) = some (bd, r) := by
  obtain ⟨i, ts, txs, p, nc⟩ := bd
  simp [encodeBD, decodeBD, List.append_assoc, decNat_enc, decTxs_enc,
    decStr_enc]

theorem H0_injective : Function.Injective H0 := by
  intro a b h
  have h' : encodeBD a = encodeBD b := congrArg String.data h
  have ha := decodeBD_enc a []
  have hb := decodeBD_enc b []
  rw [List.append_nil] at ha hb
  rw [h', hb] at ha
  simpa using ha.symm

/-- C1: for every sequence of public-API calls (`add_transaction`,
`mine_pending_transactions`) on a freshly constructed ledger, every block
`i > 0` links to block `i - 1`'s stored hash and carries index `i`; and
the chain only grows: `add_transaction` leaves it unchanged and a
successful mine appends exactly one block at the end (never reordering). -/
theorem C1_chain_linkage (H : BlockData → String) (d : Nat)
    (s : QuantumBlockchain) (hr : Reachable H d s) :
    (∀ i, ∀ h : i < s.chain.length, 1 ≤ i →
      (nth s.chain i h).previous_hash =
        (nth s.chain (i - 1) (by omega)).hash ∧
      (nth s.chain i h).index = i) ∧
    (∀ t s', QuantumBlockchain.add_transaction s t = some s' →
      s'.chain = s.chain) ∧
    (∀ a ts fuel b s',
      QuantumBlockchain.mine_pending_transactions H s a ts fuel =
        some (b, s') →
      s'.chain = s.chain ++ [b]) := by
  obtain ⟨-, -, hidx, hlink⟩ := reachable_chainInv H d s hr
  refine ⟨fun i h h1 => ⟨hlink i h h1, hidx i h⟩, ?_, ?_⟩
  · intro t s' ha
    obtain ⟨rfl, -, -, -⟩ := add_transaction_some s t s' ha
    rfl
  · intro a ts fuel b s' hm
    obtain ⟨-, -, -, -, -, -, -, -, hchain, -⟩ :=
      mine_pending_spec H s a ts fuel b s' hm
    exact hchain

theorem C1_witness :
    Reachable Hzero 0 sGen ∧
    ((∀ i, ∀ h : i < sGen.chain.length, 1 ≤ i →
      (nth sGen.chain i h).previous_hash =
        (nth sGen.chain (i - 1) (by omega)).hash ∧
      (nth sGen.chain i h).index = i) ∧
    (∀ t s', QuantumBlockchain.add_transaction sGen t = some s' →
      s'.chain = sGen.chain) ∧
    (∀ a ts fuel b s',
      QuantumBlockchain.mine_pending_transactions Hzero sGen a ts fuel =
        some (b, s') →
      s'.chain = sGen.chain ++ [b])) :=
  have hr : Reachable Hzero 0 sGen :=
    Reachable.init 0 0 sGen (by decide)
  ⟨hr, C1_chain_linkage Hzero 0 sGen hr⟩

/-- C2: `is_chain_valid` returns `true` if and only if every index `i`
from 1 to `length - 1` passes the three checks (stored hash equals the
recomputed hash; `previous_hash` equals the previous block's stored hash;
the stored hash has at least `difficulty` leading zero characters); the
genesis block at index 0 is itself never checked. -/
theorem C2_is_chain_valid_iff_checks (H : BlockData → String)
    (s : QuantumBlockchain) :
    QuantumBlockchain.is_chain_valid H s = true ↔
      ∀ i, ∀ h : i < s.chain.length, 1 ≤ i →
        ((nth s.chain i h).hash =
          Block.calculate_hash H (nth s.chain i h) ∧
         (nth s.chain i h).previous_hash =
          (nth s.chain (i - 1) (by omega)).hash ∧
         startsWithZeros (nth s.chain i h).hash.data s.difficulty = true)
    :=
  is_chain_valid_iff H s

theorem C2_witness : QuantumBlockchain.is_chain_valid Hzero sGen = true :=
  (C2_is_chain_valid_iff_checks Hzero sGen).mpr (by
    intro i h h1
    simp only [sGen, List.length_cons, List.length_nil] at h
    omega)

/-- C3: a successful `mine_pending_transactions` call appends exactly one
block whose index is the pre-call chain length, whose `previous_hash` is
the pre-call latest block's hash and whose transactions are the pre-call
pending pool; afterwards the pool holds exactly the one reward transaction
`{from: "system", to: miner, amount: mining_reward, type:
"mining_reward"}`, whatever it held before. -/
theorem C3_mine_effects (H : BlockData → String) (s : QuantumBlockchain)
    (a : String) (ts fuel : Nat) (b : Block) (s' : QuantumBlockchain)
    (h : QuantumBlockchain.mine_pending_transactions H s a ts fuel =
      some (b, s')) :
    b.index = s.chain.length ∧
    (∃ latest, QuantumBlockchain.get_latest_block s = some latest ∧
      b.previous_hash = latest.hash) ∧
    b.transactions = s.pending_transactions ∧
    s'.chain = s.chain ++ [b] ∧
    s'.pending_transactions = [rewardTx a s.mining_reward] := by
  obtain ⟨latest, hlast, hidx, -, htx, hprev, -, -, hchain, hpool, -, -⟩ :=
    mine_pending_spec H s a ts fuel b s' h
  exact ⟨hidx, ⟨latest, hlast, hprev⟩, htx, hchain, hpool⟩

theorem C3_witness :
    QuantumBlockchain.mine_pending_transactions Hzero sGen "m" 1 0 =
      some (bNext, sMined) ∧
    (bNext.index = sGen.chain.length ∧
    (∃ latest, QuantumBlockchain.get_latest_block sGen = some latest ∧
      bNext.previous_hash = latest.hash) ∧
    bNext.transactions = sGen.pending_transactions ∧
    sMined.chain = sGen.chain ++ [bNext] ∧
    sMined.pending_transactions = [rewardTx "m" sGen.mining_reward]) :=
  ⟨by decide, C3_mine_effects Hzero sGen "m" 1 0 bNext sMined (by decide)⟩

/-- C4: when the mining loop returns, the block's hash has at least
`difficulty` leading zero characters and equals the digest recomputed from
its stored fields (given the constructor invariant that the input block's
stored hash was computed from its fields); with difficulty 0 the loop
accepts immediately, returning the block unchanged. -/
theorem C4_mined_block_solved (H : BlockData → String) (d fuel : Nat)
    (b b' : Block) (hb : b.hash = Block.calculate_hash H b)
    (h : Block.mine_block H d fuel b = some b') :
    startsWithZeros b'.hash.data d = true ∧
    b'.hash.data.take d = List.replicate d '0' ∧
    b'.hash = Block.calculate_hash H b' ∧
    (d = 0 → b' = b) := by
  obtain ⟨-, -, -, -, h5, h6⟩ := mine_block_spec H d fuel b b' h
  refine ⟨h5, (startsWithZeros_iff _ _).mp h5, h6 hb, ?_⟩
  intro hd
  subst hd
  have h0 := mine_block_zero H fuel b
  rw [h] at h0
  exact Option.some.inj h0

theorem C4_witness :
    b4.hash = Block.calculate_hash Hzero b4 ∧
    Block.mine_block Hzero 1 0 b4 = some b4 ∧
    (startsWithZeros b4.hash.data 1 = true ∧
     b4.hash.data.take 1 = List.replicate 1 '0' ∧
     b4.hash = Block.calculate_hash Hzero b4 ∧
     (1 = 0 → b4 = b4)) :=
  ⟨by decide, by decide,
    C4_mined_block_solved Hzero 1 0 b4 b4 (by decide) (by decide)⟩

/-- C5: `get_balance` equals the fold, from zero, over every transaction
of every block in chain order, adding the amount when the to-field matches
the address and subtracting it when the from-field matches; a transaction
with both fields equal to the address contributes zero. -/
theorem C5_balance_fold (s : QuantumBlockchain) (address : String) :
    QuantumBlockchain.get_balance s address =
      balanceSpec address (s.chain.map Block.transactions).flatten ∧
    (∀ t : Tx, txGet t "from" = some (PyVal.str address) →
      txGet t "to" = some (PyVal.str address) →
      txDelta address t = 0) := by
  refine ⟨get_balance_eq s address, ?_⟩
  intro t hf ht
  simp [txDelta, hf, ht]

theorem C5_witness :
    QuantumBlockchain.get_balance s5 "alice" = -50 ∧
    txGet tSelf "from" = some (PyVal.str "alice") ∧
    txGet tSelf "to" = some (PyVal.str "alice") ∧
    txDelta "alice" tSelf = 0 :=
  ⟨((C5_balance_fold s5 "alice").1).trans (by decide), by decide, by decide,
    (C5_balance_fold s5 "alice").2 tSelf (by decide) (by decide)⟩

/-- C6: `add_transaction` raises (returns `none`) exactly when at least
one of the keys `"from"`, `"to"`, `"amount"` is missing, and on success
the new state is the old one with the transaction appended verbatim at the
end of the pool — no sign or balance check. -/
theorem C6_add_transaction_spec (s : QuantumBlockchain) (t : Tx) :
    (QuantumBlockchain.add_transaction s t = none ↔
      (txHas t "from" = false ∨ txHas t "to" = false ∨
        txHas t "amount" = false)) ∧
    (∀ s', QuantumBlockchain.add_transaction s t = some s' →
      s' = { s with
        pending_transactions := s.pending_transactions ++ [t] }) := by
  refine ⟨add_transaction_none s t, ?_⟩
  intro s' h
  exact (add_transaction_some s t s' h).1

theorem C6_witness :
    QuantumBlockchain.add_transaction sGen tBad = none ∧
    sGenPlus = { sGen with
      pending_transactions := sGen.pending_transactions ++ [tGood] } :=
  ⟨(C6_add_transaction_spec sGen tBad).1.mpr (by decide),
    (C6_add_transaction_spec sGen tGood).2 sGenPlus (by decide)⟩

/-- C7 counterexample: the claim that `add_transaction` rejects
transactions with an empty `from` (or `to`, or non-numeric amount) is
false — a transaction whose `"from"` value is the empty string is
accepted into the pool. -/
theorem C7_counterexample :
    ¬ (∀ (s s' : QuantumBlockchain) (t : Tx),
        QuantumBlockchain.add_transaction s t = some s' →
        (∃ f, txGet t "from" = some (PyVal.str f) ∧ f ≠ "") ∧
        (∃ g, txGet t "to" = some (PyVal.str g) ∧ g ≠ "") ∧
        (∃ n, txGet t "amount" = some (PyVal.num n))) := by
  intro hclaim
  obtain ⟨⟨f, hf, hne⟩, -, -⟩ :=
    hclaim sGen sEF tEmptyFrom (by decide)
  have : some (PyVal.str "") = some (PyVal.str f) := by
    rw [← hf]
    decide
  exact hne (PyVal.str.inj (Option.some.inj this)).symm

/-- C7 (amended): every transaction accepted by `add_transaction` contains
the keys `"from"`, `"to"` and `"amount"`; only key presence is checked, so
empty strings and non-numeric amounts pass. -/
theorem C7_amended_presence (s s' : QuantumBlockchain) (t : Tx)
    (h : QuantumBlockchain.add_transaction s t = some s') :
    txHas t "from" = true ∧ txHas t "to" = true ∧
    txHas t "amount" = true :=
  (add_transaction_some s t s' h).2

theorem C7_witness :
    QuantumBlockchain.add_transaction sGen tEmptyFrom = some sEF ∧
    (txHas tEmptyFrom "from" = true ∧ txHas tEmptyFrom "to" = true ∧
      txHas tEmptyFrom "amount" = true) :=
  ⟨by decide, C7_amended_presence sGen sEF tEmptyFrom (by decide)⟩

/-- C8: on a valid chain, changing any single stored field of a
non-genesis block to a different value makes a subsequent
`is_chain_valid` call return `false` (for a collision-free digest, the
idealization of the spec's collision-resistant primitive). -/
theorem C8_tamper_detected (H : BlockData → String)
    (hInj : Function.Injective H) (s : QuantumBlockchain) (i : Nat)
    (h : i < s.chain.length) (h1 : 1 ≤ i) (b' : Block)
    (hdiff : OneFieldDiff (nth s.chain i h) b')
    (hvalid : QuantumBlockchain.is_chain_valid H s = true) :
    QuantumBlockchain.is_chain_valid H
      (QuantumBlockchain.setBlock s i b') = false :=
  tampered_invalid H hInj s i h h1 b' hdiff hvalid

set_option maxRecDepth 400000 in
theorem C8_witness :
    Function.Injective H0 ∧
    QuantumBlockchain.is_chain_valid H0 s8 = true ∧
    OneFieldDiff (nth s8.chain 1 (by simp [s8])) b8t ∧
    QuantumBlockchain.is_chain_valid H0
      (QuantumBlockchain.setBlock s8 1 b8t) = false :=
  have hdiff : OneFieldDiff (nth s8.chain 1 (by simp [s8])) b8t :=
    Or.inr (Or.inr (Or.inr (Or.inr (Or.inl
      ⟨rfl, rfl, rfl, rfl, by decide, rfl⟩))))
  have hvalid : QuantumBlockchain.is_chain_valid H0 s8 = true := by decide
  ⟨H0_injective, hvalid, hdiff,
    C8_tamper_detected H0 H0_injective s8 1 (by simp [s8]) (by omega)
      b8t hdiff hvalid⟩

/-- C9: whenever some attempt of the proof-of-work search can succeed
(the property the spec's probabilistic argument asserts of the digest),
the mining loop terminates with enough fuel, returning a solved block;
there is no failure path. -/
theorem C9_mining_terminates (H : BlockData → String) (d : Nat)
    (b : Block) (h : Solvable H d b) :
    ∃ fuel b', Block.mine_block H d fuel b = some b' ∧
      startsWithZeros b'.hash.data d = true := by
  obtain ⟨fuel, b', hmine⟩ := mine_block_terminates H d b h
  exact ⟨fuel, b', hmine, (mine_block_spec H d fuel b b' hmine).2.2.2.2.1⟩

theorem C9_witness :
    Solvable Hzero 1 b4 ∧
    (∃ fuel b', Block.mine_block Hzero 1 fuel b4 = some b' ∧
      startsWithZeros b'.hash.data 1 = true) :=
  have hs : Solvable Hzero 1 b4 := Or.inl (by decide)
  ⟨hs, C9_mining_terminates Hzero 1 b4 hs⟩

/-- C10: every reachable ledger state has a non-empty chain whose head is
the mined genesis block with `previous_hash = "0"`, so `get_latest_block`
always returns the last block; a freshly constructed ledger has chain
length exactly 1. -/
theorem C10_chain_never_empty (H : BlockData → String) (d : Nat)
    (s : QuantumBlockchain) (hr : Reachable H d s) :
    s.chain ≠ [] ∧
    (∃ b, QuantumBlockchain.get_latest_block s = some b) ∧
    (∀ g, s.chain.head? = some g → g.previous_hash = "0") ∧
    (∀ ts fuel s0, QuantumBlockchain.init H d ts fuel = some s0 →
      s0.chain.length = 1) := by
  obtain ⟨hne, hhead, -, -⟩ := reachable_chainInv H d s hr
  refine ⟨hne, ?_, hhead, ?_⟩
  · exact ⟨s.chain.getLast hne,
      List.getLast?_eq_getLast s.chain hne⟩
  · intro ts fuel s0 h0
    obtain ⟨g, rfl, -⟩ := init_spec H d ts fuel s0 h0
    rfl

theorem C10_witness :
    Reachable Hzero 0 sGen ∧
    (sGen.chain ≠ [] ∧
    (∃ b, QuantumBlockchain.get_latest_block sGen = some b) ∧
    (∀ g, sGen.chain.head? = some g → g.previous_hash = "0") ∧
    (∀ ts fuel s0, QuantumBlockchain.init Hzero 0 ts fuel = some s0 →
      s0.chain.length = 1)) :=
  have hr : Reachable Hzero 0 sGen :=
    Reachable.init 0 0 sGen (by decide)
  ⟨hr, C10_chain_never_empty Hzero 0 sGen hr⟩
